import Mathlib

/-!
Verification of `dist/macos/update_appcast_tip.py` (ghostty appcast updater).

The script reads a Sparkle `sign_update` attribute blob, parses the existing
`appcast.xml`, removes duplicate-version and missing-pubDate items, prunes the
oldest items beyond a retention cap of 15, appends a freshly constructed item,
and writes the result to `appcast_new.xml`.

This file is a shallow embedding of that script.  Python exceptions are
modelled by `Except PyErr`; the XML channel is modelled as the ordered list of
its `item` children; `dict`s and XML attribute maps are modelled as ordered
association lists with replace-or-append insertion, matching Python insertion
order semantics.
-/

/-- Kinds of Python exceptions the script can raise. -/
inductive PyErr where
  | valueError
  | indexError
  | typeError
  | attributeError
  | keyError
  | fileNotFoundError
  | parseError
  deriving DecidableEq

/-- Characters removed by Python `str.strip()`. -/
def pyWS (c : Char) : Bool :=
  c = ' ' || c = '\t' || c = '\n' || c = '\r' || c = '\x0b' || c = '\x0c'

/-- Python `str.strip()` on a character list: drop whitespace at both ends. -/
def pyStrip (l : List Char) : List Char :=
  ((l.dropWhile pyWS).reverse.dropWhile pyWS).reverse

/-- Python `str.split(sep)` with a one-character separator: split at every
occurrence, keeping empty pieces (so `"".split(" ") = [""]`). -/
def splitOnChar (c : Char) : List Char → List (List Char)
  | [] => [[]]
  | x :: xs =>
    if x = c then [] :: splitOnChar c xs
    else
      match splitOnChar c xs with
      | [] => [[x]]
      | t :: ts => (x :: t) :: ts

/-- Python `s.split(sep, 1)` when it produces two pieces: split at the FIRST
occurrence of `c`; `none` when `c` does not occur (in the script this makes
the two-variable unpacking raise `ValueError`). -/
def splitFirst (c : Char) : List Char → Option (List Char × List Char)
  | [] => none
  | x :: xs =>
    if x = c then some ([], xs)
    else (splitFirst c xs).map (fun p => (x :: p.1, p.2))

/-- One iteration of the `sign_update.txt` loop (script lines 33-38):
`key, value = pair.split("=", 1)`, `value = value.strip()`, and
`if value[0] == '"': value = value[1:-1]`.  A token without `=` raises
`ValueError` (failed unpacking); an empty stripped value raises `IndexError`
at `value[0]`. -/
def parseToken (t : List Char) : Except PyErr (String × String) :=
  match splitFirst '=' t with
  | none => .error .valueError
  | some (k, v) =>
    match pyStrip v with
    | [] => .error .indexError
    | c :: rest =>
      if c = '\x22' then .ok (⟨k⟩, ⟨rest.dropLast⟩)
      else .ok (⟨k⟩, ⟨c :: rest⟩)

/-- Insertion into an ordered association map: replace the value in place when
the key exists, append otherwise.  This is both Python `dict` assignment and
`xml.etree` `Element.set`. -/
def setAttr (k v : String) : List (String × String) → List (String × String)
  | [] => [(k, v)]
  | (k0, v0) :: rest =>
    if k0 = k then (k, v) :: rest else (k0, v0) :: setAttr k v rest

/-- The `for pair in f.read().split(" ")` loop body threaded over the tokens,
accumulating the `attrs` dict. -/
def parseLoop (acc : List (String × String)) :
    List (List Char) → Except PyErr (List (String × String))
  | [] => .ok acc
  | t :: ts =>
    match parseToken t with
    | .error e => .error e
    | .ok kv => parseLoop (setAttr kv.1 kv.2 acc) ts

/-- Script lines 29-38: parse the whole `sign_update.txt` blob into the
`attrs` mapping. -/
def parseAttrs (blob : String) : Except PyErr (List (String × String)) :=
  parseLoop [] (splitOnChar ' ' blob.data)

/-- An `item` element of the channel.  Each child element is `Option (Option
String)`: the outer layer is element presence (`find` returning `None`), the
inner layer is the element's text.  `enclosure` carries its attribute map. -/
structure Item where
  title : Option (Option String) := none
  pubDate : Option (Option String) := none
  version : Option (Option String) := none
  shortVersionString : Option (Option String) := none
  minimumSystemVersion : Option (Option String) := none
  itemDescription : Option (Option String) := none
  enclosure : Option (List (String × String)) := none
  deriving DecidableEq

/-- Script line 55 guard: `version is not None and version.text == build`. -/
def versionMatches (build : String) (it : Item) : Bool :=
  match it.version with
  | some (some t) => t = build
  | _ => false

/-- Number of items in a list whose `sparkle:version` text equals `v`. -/
def countVersion (v : String) (l : List Item) : Nat :=
  l.countP (fun it => versionMatches v it)

/-- Value of a decimal digit character, `none` otherwise. -/
def digitVal (c : Char) : Option Nat :=
  if c.isDigit then some (c.toNat - 48) else none

/-- Two decimal digit characters to a number. -/
def twoDigits (a b : Char) : Option Nat := do
  pure ((← digitVal a) * 10 + (← digitVal b))

/-- Four decimal digit characters to a number. -/
def fourDigits (a b c d : Char) : Option Nat := do
  pure (((← digitVal a) * 1000) + ((← digitVal b) * 100) + ((← digitVal c) * 10) + (← digitVal d))

/-- Month number from a `%b` abbreviation. -/
def monthNum : List Char → Option Nat
  | ['J', 'a', 'n'] => some 1
  | ['F', 'e', 'b'] => some 2
  | ['M', 'a', 'r'] => some 3
  | ['A', 'p', 'r'] => some 4
  | ['M', 'a', 'y'] => some 5
  | ['J', 'u', 'n'] => some 6
  | ['J', 'u', 'l'] => some 7
  | ['A', 'u', 'g'] => some 8
  | ['S', 'e', 'p'] => some 9
  | ['O', 'c', 't'] => some 10
  | ['N', 'o', 'v'] => some 11
  | ['D', 'e', 'c'] => some 12
  | _ => none

/-- Weekday abbreviations accepted for `%a` (parsed and then ignored, as
`datetime.strptime` does). -/
def isWeekdayAbbr (l : List Char) : Bool :=
  l = ['M', 'o', 'n'] || l = ['T', 'u', 'e'] || l = ['W', 'e', 'd'] ||
  l = ['T', 'h', 'u'] || l = ['F', 'r', 'i'] || l = ['S', 'a', 't'] ||
  l = ['S', 'u', 'n']

/-- Gregorian leap year test. -/
def isLeap (y : Nat) : Bool :=
  (y % 4 = 0 && y % 100 ≠ 0) || y % 400 = 0

/-- Days in a month of a given year. -/
def daysInMonth (y m : Nat) : Nat :=
  if m = 2 then (if isLeap y then 29 else 28)
  else if m = 4 || m = 6 || m = 9 || m = 11 then 30
  else 31

/-- Days since 1970-01-01 of a civil date (standard days-from-civil
computation; all intermediate quotients are on nonnegative values for the
years `1 ≤ y` that the date parser admits). -/
def daysFromCivil (y m d : Nat) : Int :=
  let yy : Int := if m ≤ 2 then (y : Int) - 1 else (y : Int)
  let era : Int := yy / 400
  let yoe : Int := yy - era * 400
  let mp : Int := ((m : Int) + 9) % 12
  let doy : Int := (153 * mp + 2) / 5 + (d : Int) - 1
  let doe : Int := yoe * 365 + yoe / 4 - yoe / 100 + doy
  era * 146097 + doe - 719468

/-- Models `datetime.strptime(s, "%a, %d %b %Y %H:%M:%S %z")` from the Python
standard library (an external collaborator of the script): accepts the fixed
31-character normalized form `Www, DD Mmm YYYY HH:MM:SS +ZZZZ` and returns
the instant as seconds relative to the epoch (aware datetimes compare by
instant), `none` when the text does not parse (where `strptime` raises
`ValueError`). -/
def strptime (s : String) : Option Int :=
  match s.data with
  | [a1, a2, a3, ',', ' ', d1, d2, ' ', b1, b2, b3, ' ',
     y1, y2, y3, y4, ' ', h1, h2, ':', n1, n2, ':', s1, s2, ' ',
     sg, z1, z2, z3, z4] => do
    let _ ← if isWeekdayAbbr [a1, a2, a3] then some () else none
    let d ← twoDigits d1 d2
    let m ← monthNum [b1, b2, b3]
    let y ← fourDigits y1 y2 y3 y4
    let h ← twoDigits h1 h2
    let mi ← twoDigits n1 n2
    let se ← twoDigits s1 s2
    let zh ← twoDigits z1 z2
    let zm ← twoDigits z3 z4
    let sign : Int ← if sg = '+' then some 1 else if sg = '-' then some (-1) else none
    if 1 ≤ y ∧ 1 ≤ d ∧ d ≤ daysInMonth y m ∧ h ≤ 23 ∧ mi ≤ 59 ∧ se ≤ 59 ∧ zh ≤ 23 ∧ zm ≤ 59 then
      pure (daysFromCivil y m d * 86400 + (h : Int) * 3600 + (mi : Int) * 60 + (se : Int)
            - sign * ((zh : Int) * 60 + (zm : Int)) * 60)
    else none
  | _ => none

/-- The sort key of script line 67,
`datetime.strptime(item.find("pubDate").text, pubdate_format)`:
`AttributeError` when the `pubDate` element is missing (`None.text`),
`TypeError` when its text is `None` (`strptime(None, ...)`), `ValueError`
when the text does not parse. -/
def sortKeyOf (it : Item) : Except PyErr Int :=
  match it.pubDate with
  | none => .error .attributeError
  | some none => .error .typeError
  | some (some s) =>
    match strptime s with
    | none => .error .valueError
    | some t => .ok t

/-- `Bool` test that an `Except` is `ok`. -/
def isOkB {ε α : Type} : Except ε α → Bool
  | .ok _ => true
  | .error _ => false

/-- Decorate every item with its sort key; Python computes the key of every
list element (in list order) before sorting, raising at the first failure. -/
def computeKeys : List Item → Except PyErr (List (Int × Item))
  | [] => .ok []
  | it :: rest =>
    match sortKeyOf it with
    | .error e => .error e
    | .ok k =>
      match computeKeys rest with
      | .error e => .error e
      | .ok l => .ok ((k, it) :: l)

/-- Stable insertion of a decorated item into an ascending run: it goes in
front of the first element whose key is not smaller (so earlier list elements
stay first among equal keys, as Python sort does). -/
def insertByKey (p : Int × Item) : List (Int × Item) → List (Int × Item)
  | [] => [p]
  | q :: qs => if q.1 < p.1 then q :: insertByKey p qs else p :: q :: qs

/-- Stable ascending sort of the decorated items (models `items.sort(key =
strptime of pubDate)`). -/
def sortByKey (l : List (Int × Item)) : List (Int × Item) :=
  l.foldr insertByKey []

/-- Script line 64: retention cap. -/
def pruneAmount : Nat := 15

/-- Script lines 63-70: sort the items by parsed `pubDate` and, when more
than `pruneAmount` remain, remove the oldest `len - pruneAmount` from the
channel (`items[:-prune_amount]`). -/
def prunePass (ch : List Item) : Except PyErr (List Item) :=
  match computeKeys ch with
  | .error e => .error e
  | .ok deco =>
    let sorted := sortByKey deco
    if pruneAmount < sorted.length then
      .ok ((sorted.take (sorted.length - pruneAmount)).foldl (fun c p => c.erase p.2) ch)
    else .ok ch

/-- One iteration of the loop of script lines 53-61 on the current channel
state: remove the item when its version matches the build, then remove it
again when it has no `pubDate` — `Element.remove` raises `ValueError` when
the element is no longer among the children. -/
def removeStep (build : String) (ch : List Item) (it : Item) : Except PyErr (List Item) :=
  let ch1 := if versionMatches build it then ch.erase it else ch
  if it.pubDate = none then
    if it ∈ ch1 then .ok (ch1.erase it) else .error .valueError
  else .ok ch1

/-- The loop of script lines 53-61: iterate over the snapshot
`channel.findall("item")` while mutating the channel. -/
def removeLoop (build : String) : List Item → List Item → Except PyErr (List Item)
  | [], ch => .ok ch
  | it :: rest, ch =>
    match removeStep build ch it with
    | .error e => .error e
    | .ok ch2 => removeLoop build rest ch2

/-- Script lines 53-61 applied to the channel. -/
def removePass (build : String) (ch : List Item) : Except PyErr (List Item) :=
  removeLoop build ch ch

/-- Fixed repository URL (script line 26). -/
def repoURL : String := "https://github.com/ghostty-org/ghostty"

/-- The generated `description` HTML (script lines 85-95). -/
def descriptionText (commit commitLong nowDate : String) : String :=
  "\n<p>\nAutomated build from commit <code><a href=\x22" ++ repoURL ++ "/commits/" ++
  commitLong ++ "\x22>" ++ commit ++ "</a></code>\non " ++ nowDate ++
  ".\n</p>\n<p>\nThese are automatic per-commit builds generated from the main Git branch.\nWe do not generate any release notes for these builds. You can view the full\ncommit history <a href=\x22" ++
  repoURL ++ "\x22>on GitHub</a> for all changes.\n</p>\n"

/-- Script lines 72-100: construct the new item.  `nowFmt` and `nowDate` are
the strings `now.strftime(pubdate_format)` and `now.strftime("%Y-%m-%d")`
supplied by the environment.  The enclosure starts from `url` and `type` and
then receives every signature attribute via `Element.set`. -/
def newItem (build commit commitLong nowFmt nowDate : String)
    (attrs : List (String × String)) : Item :=
  { title := some (some ("Build " ++ build))
    pubDate := some (some nowFmt)
    version := some (some build)
    shortVersionString := some (some (commit ++ " (" ++ nowDate ++ ")"))
    minimumSystemVersion := some (some "13.0.0")
    itemDescription := some (some (descriptionText commit commitLong nowDate))
    enclosure := some (attrs.foldl (fun m kv => setAttr kv.1 kv.2 m)
      [("url", "https://tip.files.ghostty.org/" ++ commitLong ++ "/Ghostty.dmg"),
       ("type", "application/octet-stream")]) }

/-- Script lines 53-73: the whole channel transformation — removal loop,
pruning, then appending the new item. -/
def reconcile (build : String) (newIt : Item) (channel : List Item) :
    Except PyErr (List Item) :=
  match removePass build channel with
  | .error e => .error e
  | .ok ch1 =>
    match prunePass ch1 with
    | .error e => .error e
    | .ok ch2 => .ok (ch2 ++ [newIt])

/-- Inputs of one run: the environment mapping, the contents of
`sign_update.txt` (`none` = file missing), the parsed `appcast.xml` (`none` =
malformed markup, `some none` = no `channel` element, `some (some ch)` = the
channel's items), and the two formatted timestamps of `now`. -/
structure ScriptInput where
  env : List (String × String)
  signUpdate : Option String
  appcast : Option (Option (List Item))
  nowFmt : String
  nowDate : String

/-- `os.environ[k]`: raises `KeyError` when absent. -/
def envGet (env : List (String × String)) (k : String) : Except PyErr String :=
  match env.lookup k with
  | some v => .ok v
  | none => .error .keyError

/-- The whole script as a function from its inputs to the output channel item
list (the document written to `appcast_new.xml`), in source order: read the
environment (lines 23-25), read and parse `sign_update.txt` (lines 29-38),
parse `appcast.xml` and find the channel (lines 47-48, the missing-channel
`AttributeError` surfacing at first use), then reconcile (lines 53-100). -/
def runScript (inp : ScriptInput) : Except PyErr (List Item) :=
  match envGet inp.env "GHOSTTY_BUILD" with
  | .error e => .error e
  | .ok build =>
  match envGet inp.env "GHOSTTY_COMMIT" with
  | .error e => .error e
  | .ok commit =>
  match envGet inp.env "GHOSTTY_COMMIT_LONG" with
  | .error e => .error e
  | .ok commitLong =>
  match inp.signUpdate with
  | none => .error .fileNotFoundError
  | some blob =>
  match parseAttrs blob with
  | .error e => .error e
  | .ok attrs =>
  match inp.appcast with
  | none => .error .parseError
  | some feed =>
  match feed with
  | none => .error .attributeError
  | some channel =>
    reconcile build (newItem build commit commitLong inp.nowFmt inp.nowDate attrs) channel

/-- The file `appcast_new.xml` after a run: written (script line 103) only
when every previous step succeeded, absent when any step raised. -/
def outputFile (inp : ScriptInput) : Option (List Item) :=
  match runScript inp with
  | .ok doc => some doc
  | .error _ => none

/-! ### Lemmas about the signature attribute parser -/

theorem splitFirst_of_not_mem {c : Char} {t : List Char} (h : c ∉ t) :
    splitFirst c t = none := by
  induction t with
  | nil => rfl
  | cons x xs ih =>
    simp only [List.mem_cons, not_or] at h
    simp [splitFirst, Ne.symm h.1, ih h.2]

theorem splitFirst_append {c : Char} {v : List Char} :
    ∀ {k : List Char}, c ∉ k → splitFirst c (k ++ c :: v) = some (k, v) := by
  intro k
  induction k with
  | nil => intro _; simp [splitFirst]
  | cons x xs ih =>
    intro h
    simp only [List.mem_cons, not_or] at h
    simp [splitFirst, Ne.symm h.1, ih h.2]

theorem parseToken_no_eq {t : List Char} (h : '=' ∉ t) :
    parseToken t = Except.error PyErr.valueError := by
  simp [parseToken, splitFirst_of_not_mem h]

theorem pyStrip_all_ws {l : List Char} (h : ∀ x ∈ l, pyWS x = true) :
    pyStrip l = [] := by
  unfold pyStrip
  rw [List.dropWhile_eq_nil_iff.2 h]
  simp

theorem parseLoop_error {ts : List (List Char)}
    (h : ∃ t ∈ ts, ∃ e, parseToken t = Except.error e) :
    ∀ acc, ∃ e, parseLoop acc ts = Except.error e := by
  induction ts with
  | nil => simp at h
  | cons t0 rest ih =>
    intro acc
    obtain ⟨t, hmem, e, he⟩ := h
    by_cases ht : ∃ e, parseToken t0 = Except.error e
    · obtain ⟨e0, he0⟩ := ht
      exact ⟨e0, by simp [parseLoop, he0]⟩
    · have ht0 : t ≠ t0 := by
        intro hq
        exact ht ⟨e, hq ▸ he⟩
      have hmem' : t ∈ rest := by
        rcases List.mem_cons.1 hmem with h1 | h1
        · exact absurd h1 ht0
        · exact h1
      cases hpt : parseToken t0 with
      | error e0 => exact absurd ⟨e0, hpt⟩ ht
      | ok kv =>
        obtain ⟨e1, he1⟩ := ih ⟨t, hmem', e, he⟩ (setAttr kv.1 kv.2 acc)
        exact ⟨e1, by simp [parseLoop, hpt, he1]⟩

/-! ### Lemmas about the removal loop -/

theorem eraseSubset {l : List Item} {a : Item} : l.erase a ⊆ l := by
  intro x hx
  exact List.mem_of_mem_erase hx

theorem removeStep_shape {build : String} {ch : List Item} {it : Item} {out : List Item}
    (h : removeStep build ch it = Except.ok out) :
    out = ch ∨ out = ch.erase it ∨ out = (ch.erase it).erase it := by
  by_cases hv : versionMatches build it = true <;>
    by_cases hp : it.pubDate = none <;>
    simp only [removeStep, hv, hp, if_true, if_false, Bool.false_eq_true, ite_true, ite_false,
      if_neg, reduceCtorEq] at h <;>
    first
    | (split at h
       · simp only [Except.ok.injEq] at h
         tauto
       · simp only [Except.ok.injEq, reduceCtorEq] at h)
    | (simp only [Except.ok.injEq] at h
       tauto)

theorem removeStep_subset {build : String} {ch : List Item} {it : Item} {out : List Item}
    (h : removeStep build ch it = Except.ok out) : out ⊆ ch := by
  rcases removeStep_shape h with rfl | rfl | rfl
  · exact fun a ha => ha
  · exact eraseSubset
  · exact fun a ha => eraseSubset (eraseSubset ha)

theorem removeStep_nodup {build : String} {ch : List Item} {it : Item} {out : List Item}
    (hnd : ch.Nodup) (h : removeStep build ch it = Except.ok out) : out.Nodup := by
  rcases removeStep_shape h with rfl | rfl | rfl
  · exact hnd
  · exact hnd.erase _
  · exact (hnd.erase _).erase _

theorem removeStep_not_mem {build : String} {ch : List Item} {it : Item} {out : List Item}
    (hnd : ch.Nodup) (h : removeStep build ch it = Except.ok out)
    (hcond : versionMatches build it = true ∨ it.pubDate = none) : it ∉ out := by
  by_cases hv : versionMatches build it = true
  · by_cases hp : it.pubDate = none
    · simp only [removeStep, hv, hp, if_true, if_false, ite_true, ite_false] at h
      rw [if_neg hnd.not_mem_erase] at h
      cases h
    · simp only [removeStep, hv, hp, if_true, if_false, ite_true, ite_false,
        Except.ok.injEq] at h
      subst h
      exact hnd.not_mem_erase
  · by_cases hp : it.pubDate = none
    · simp only [removeStep, hv, hp, Bool.false_eq_true, if_true, if_false, ite_true,
        ite_false] at h
      split at h
      · simp only [Except.ok.injEq] at h
        subst h
        exact hnd.not_mem_erase
      · cases h
    · rcases hcond with hc | hc
      · exact absurd hc hv
      · exact absurd hc hp

theorem removeStep_mem_of_ne {build : String} {ch : List Item} {x it : Item} {out : List Item}
    (h : removeStep build ch x = Except.ok out) (hne : it ≠ x) (hm : it ∈ ch) : it ∈ out := by
  rcases removeStep_shape h with rfl | rfl | rfl
  · exact hm
  · exact (List.mem_erase_of_ne hne).2 hm
  · exact (List.mem_erase_of_ne hne).2 ((List.mem_erase_of_ne hne).2 hm)

theorem removeLoop_subset {build : String} : ∀ {rest ch out : List Item},
    removeLoop build rest ch = Except.ok out → out ⊆ ch := by
  intro rest
  induction rest with
  | nil =>
    intro ch out h
    simp only [removeLoop, Except.ok.injEq] at h
    subst h
    exact fun a ha => ha
  | cons x rest ih =>
    intro ch out h
    simp only [removeLoop] at h
    cases hs : removeStep build ch x with
    | error e => rw [hs] at h; cases h
    | ok ch2 =>
      rw [hs] at h
      exact fun a ha => removeStep_subset hs (ih h ha)

theorem removeLoop_nodup {build : String} : ∀ {rest ch out : List Item},
    ch.Nodup → removeLoop build rest ch = Except.ok out → out.Nodup := by
  intro rest
  induction rest with
  | nil =>
    intro ch out hnd h
    simp only [removeLoop, Except.ok.injEq] at h
    subst h
    exact hnd
  | cons x rest ih =>
    intro ch out hnd h
    simp only [removeLoop] at h
    cases hs : removeStep build ch x with
    | error e => rw [hs] at h; cases h
    | ok ch2 =>
      rw [hs] at h
      exact ih (removeStep_nodup hnd hs) h

theorem removeLoop_not_mem {build : String} : ∀ {rest ch out : List Item},
    ch.Nodup → removeLoop build rest ch = Except.ok out →
    ∀ it ∈ rest, (versionMatches build it = true ∨ it.pubDate = none) → it ∉ out := by
  intro rest
  induction rest with
  | nil =>
    intro ch out _ _ it hmem
    cases hmem
  | cons x rest ih =>
    intro ch out hnd h it hmem hcond
    simp only [removeLoop] at h
    cases hs : removeStep build ch x with
    | error e => rw [hs] at h; cases h
    | ok ch2 =>
      rw [hs] at h
      rcases List.mem_cons.1 hmem with rfl | hmem2
      · intro hout
        exact removeStep_not_mem hnd hs hcond (removeLoop_subset h hout)
      · exact ih (removeStep_nodup hnd hs) h it hmem2 hcond

theorem removeLoop_error_of_both {build : String} : ∀ {rest ch : List Item} {it : Item},
    ch.Nodup → rest.Nodup → it ∈ rest → it ∈ ch →
    versionMatches build it = true → it.pubDate = none →
    ∃ e, removeLoop build rest ch = Except.error e := by
  intro rest
  induction rest with
  | nil =>
    intro ch it _ _ hmem
    cases hmem
  | cons x rest ih =>
    intro ch it hnd hrnd hmem hch hv hp
    rcases List.mem_cons.1 hmem with rfl | hmem2
    · have hstep : removeStep build ch it = Except.error PyErr.valueError := by
        simp only [removeStep, hv, hp, ite_true]
        rw [if_neg hnd.not_mem_erase]
      exact ⟨PyErr.valueError, by simp only [removeLoop, hstep]⟩
    · cases hs : removeStep build ch x with
      | error e => exact ⟨e, by simp only [removeLoop, hs]⟩
      | ok ch2 =>
        have hne : it ≠ x := by
          intro hq
          subst hq
          exact (List.nodup_cons.1 hrnd).1 hmem2
        obtain ⟨e, he⟩ := ih (removeStep_nodup hnd hs) (List.nodup_cons.1 hrnd).2 hmem2
          (removeStep_mem_of_ne hs hne hch) hv hp
        exact ⟨e, by simp only [removeLoop, hs, he]⟩

/-! ### The removal loop as a filter, when every snapshot item has a pubDate -/

theorem removeLoop_ok_of_dates {build : String} : ∀ {rest : List Item} (ch : List Item),
    (∀ it ∈ rest, it.pubDate ≠ none) →
    removeLoop build rest ch =
      Except.ok (rest.foldl (fun c it2 => if versionMatches build it2 then c.erase it2 else c) ch) := by
  intro rest
  induction rest with
  | nil => intro ch _; rfl
  | cons x rest ih =>
    intro ch hdates
    have hx : x.pubDate ≠ none := hdates x (List.mem_cons_self x rest)
    have hstep : removeStep build ch x =
        Except.ok (if versionMatches build x then ch.erase x else ch) := by
      simp only [removeStep, if_neg hx]
    simp only [removeLoop, hstep, List.foldl_cons]
    exact ih _ (fun it hm => hdates it (List.mem_cons_of_mem x hm))

theorem foldl_eraseIf_eq_filter (p : Item → Bool) : ∀ (rest : List Item) (ch : List Item),
    ch.Nodup →
    rest.foldl (fun c x => if p x then c.erase x else c) ch
      = ch.filter (fun x => !(p x && decide (x ∈ rest))) := by
  intro rest
  induction rest with
  | nil =>
    intro ch _
    simp
  | cons x rest ih =>
    intro ch hnd
    by_cases hp : p x = true
    · have h1 : ch.erase x = ch.filter (fun y => y != x) := hnd.erase_eq_filter x
      simp only [List.foldl_cons, hp, ite_true]
      rw [ih (ch.erase x) (hnd.erase x), h1, List.filter_filter]
      apply List.filter_congr
      intro y _
      by_cases hyx : y = x
      · subst hyx
        simp [hp]
      · simp [hyx, List.mem_cons]
    · have hp2 : p x = false := by
        cases hq : p x
        · rfl
        · exact absurd hq hp
      simp only [List.foldl_cons, hp2, Bool.false_eq_true, ite_false, ih ch hnd]
      apply List.filter_congr
      intro y _
      by_cases hyx : y = x
      · subst hyx
        simp [hp2]
      · simp [hyx, List.mem_cons]

theorem removePass_eq_filter {build : String} {ch : List Item}
    (hnd : ch.Nodup) (hdates : ∀ it ∈ ch, it.pubDate ≠ none) :
    removePass build ch = Except.ok (ch.filter (fun it => !versionMatches build it)) := by
  unfold removePass
  rw [removeLoop_ok_of_dates ch hdates, foldl_eraseIf_eq_filter _ ch ch hnd]
  congr 1
  apply List.filter_congr
  intro y hy
  simp [hy]

/-! ### Lemmas about sort-key computation, sorting and pruning -/

theorem computeKeys_map_snd : ∀ {ch : List Item} {l : List (Int × Item)},
    computeKeys ch = Except.ok l → l.map Prod.snd = ch := by
  intro ch
  induction ch with
  | nil =>
    intro l h
    simp only [computeKeys, Except.ok.injEq] at h
    subst h
    rfl
  | cons it rest ih =>
    intro l h
    simp only [computeKeys] at h
    cases hk : sortKeyOf it with
    | error e => rw [hk] at h; cases h
    | ok k =>
      rw [hk] at h
      cases hr : computeKeys rest with
      | error e => rw [hr] at h; cases h
      | ok l2 =>
        rw [hr] at h
        simp only [Except.ok.injEq] at h
        subst h
        simp [ih hr]

theorem computeKeys_ok_of : ∀ {ch : List Item},
    (∀ it ∈ ch, isOkB (sortKeyOf it) = true) → ∃ l, computeKeys ch = Except.ok l := by
  intro ch
  induction ch with
  | nil => intro _; exact ⟨[], rfl⟩
  | cons it rest ih =>
    intro h
    cases hk : sortKeyOf it with
    | error e =>
      have := h it (List.mem_cons_self it rest)
      rw [hk] at this
      simp [isOkB] at this
    | ok k =>
      obtain ⟨l, hl⟩ := ih (fun x hx => h x (List.mem_cons_of_mem it hx))
      exact ⟨(k, it) :: l, by simp [computeKeys, hk, hl]⟩

theorem computeKeys_error_of_mem : ∀ {ch : List Item} {it : Item} {e : PyErr},
    it ∈ ch → sortKeyOf it = Except.error e → ∃ e2, computeKeys ch = Except.error e2 := by
  intro ch
  induction ch with
  | nil =>
    intro it e hmem
    cases hmem
  | cons x rest ih =>
    intro it e hmem he
    cases hk : sortKeyOf x with
    | error e0 => exact ⟨e0, by simp [computeKeys, hk]⟩
    | ok k =>
      rcases List.mem_cons.1 hmem with rfl | hmem2
      · rw [hk] at he
        cases he
      · obtain ⟨e2, he2⟩ := ih hmem2 he
        exact ⟨e2, by simp [computeKeys, hk, he2]⟩

theorem insertByKey_perm (p : Int × Item) : ∀ (l : List (Int × Item)),
    (insertByKey p l).Perm (p :: l) := by
  intro l
  induction l with
  | nil => exact List.Perm.refl _
  | cons q qs ih =>
    simp only [insertByKey]
    split
    · exact (ih.cons q).trans (List.Perm.swap p q qs)
    · exact List.Perm.refl _

theorem sortByKey_perm : ∀ (l : List (Int × Item)), (sortByKey l).Perm l := by
  intro l
  induction l with
  | nil => exact List.Perm.refl _
  | cons p ps ih =>
    simp only [sortByKey, List.foldr_cons]
    exact (insertByKey_perm p _).trans (ih.cons p)

theorem sortByKey_of_sorted : ∀ {l : List (Int × Item)},
    l.Pairwise (fun a b => a.1 < b.1) → sortByKey l = l := by
  intro l
  induction l with
  | nil => intro _; rfl
  | cons p ps ih =>
    intro h
    rcases List.pairwise_cons.1 h with ⟨hp, hps⟩
    simp only [sortByKey, List.foldr_cons] at *
    rw [ih hps]
    cases ps with
    | nil => rfl
    | cons q qs =>
      have hq : ¬(q.1 < p.1) := Int.not_lt.2 (Int.le_of_lt (hp q (List.mem_cons_self q qs)))
      simp [insertByKey, hq]

theorem foldl_erase_subset : ∀ (xs : List Item) (ch : List Item),
    xs.foldl (fun c x => c.erase x) ch ⊆ ch := by
  intro xs
  induction xs with
  | nil => intro ch a ha; exact ha
  | cons x xs ih =>
    intro ch a ha
    simp only [List.foldl_cons] at ha
    exact eraseSubset (ih (ch.erase x) ha)

theorem foldl_erase_length : ∀ (xs : List Item) (ch : List Item), ch.Nodup → xs.Nodup →
    (∀ x ∈ xs, x ∈ ch) →
    (xs.foldl (fun c x => c.erase x) ch).length = ch.length - xs.length := by
  intro xs
  induction xs with
  | nil => intro ch _ _ _; simp
  | cons x xs ih =>
    intro ch hnd hxnd hsub
    simp only [List.foldl_cons]
    have hxch : x ∈ ch := hsub x (List.mem_cons_self x xs)
    have hrec := ih (ch.erase x) (hnd.erase x) (List.nodup_cons.1 hxnd).2
      (fun y hy => (List.mem_erase_of_ne (by
        intro hq
        subst hq
        exact (List.nodup_cons.1 hxnd).1 hy)).2 (hsub y (List.mem_cons_of_mem x hy)))
    rw [hrec, List.length_erase_of_mem hxch]
    simp only [List.length_cons]
    omega

theorem take_foldl_erase : ∀ (l : List Item) (n : Nat),
    (l.take n).foldl (fun c x => c.erase x) l = l.drop n := by
  intro l
  induction l with
  | nil => intro n; simp
  | cons x xs ih =>
    intro n
    cases n with
    | zero => simp
    | succ n =>
      simp only [List.take_succ_cons, List.foldl_cons, List.erase_cons_head, List.drop_succ_cons]
      exact ih n

theorem prunePass_error {ch : List Item} {e : PyErr} (h : computeKeys ch = Except.error e) :
    prunePass ch = Except.error e := by
  simp [prunePass, h]

theorem foldl_erase_pairs : ∀ (xs : List (Int × Item)) (ch : List Item),
    xs.foldl (fun c p => c.erase p.2) ch = (xs.map Prod.snd).foldl (fun c x => c.erase x) ch := by
  intro xs
  induction xs with
  | nil => intro ch; rfl
  | cons p ps ih => intro ch; simp only [List.foldl_cons, List.map_cons, ih]

theorem prunePass_eq {ch : List Item} {deco : List (Int × Item)}
    (hk : computeKeys ch = Except.ok deco) :
    prunePass ch =
      if pruneAmount < (sortByKey deco).length then
        Except.ok (((sortByKey deco).take ((sortByKey deco).length - pruneAmount)).foldl
          (fun c p => c.erase p.2) ch)
      else Except.ok ch := by
  unfold prunePass
  rw [hk]

theorem prunePass_subset {ch out : List Item} (h : prunePass ch = Except.ok out) : out ⊆ ch := by
  cases hk : computeKeys ch with
  | error e => rw [prunePass_error hk] at h; cases h
  | ok deco =>
    rw [prunePass_eq hk] at h
    split at h <;> simp only [Except.ok.injEq] at h <;> subst h
    · intro a ha
      rw [foldl_erase_pairs] at ha
      exact foldl_erase_subset _ ch ha
    · exact fun a ha => ha

theorem prunePass_ok_small {ch : List Item} {deco : List (Int × Item)}
    (hk : computeKeys ch = Except.ok deco) (hlen : ch.length ≤ pruneAmount) :
    prunePass ch = Except.ok ch := by
  have hl : (sortByKey deco).length = ch.length := by
    rw [(sortByKey_perm deco).length_eq, ← computeKeys_map_snd hk, List.length_map]
  rw [prunePass_eq hk, if_neg (by rw [hl]; exact Nat.not_lt.2 hlen)]

theorem prunePass_length {ch : List Item} {deco : List (Int × Item)}
    (hnd : ch.Nodup) (hk : computeKeys ch = Except.ok deco) :
    ∃ out, prunePass ch = Except.ok out ∧ out.length = min ch.length pruneAmount ∧ out ⊆ ch := by
  have hsnd : deco.map Prod.snd = ch := computeKeys_map_snd hk
  have hperm : ((sortByKey deco).map Prod.snd).Perm ch := by
    rw [← hsnd]
    exact (sortByKey_perm deco).map Prod.snd
  have hslen : (sortByKey deco).length = ch.length := by
    have h2 := hperm.length_eq
    simpa using h2
  have hpa : pruneAmount = 15 := rfl
  by_cases h15 : pruneAmount < (sortByKey deco).length
  · rw [prunePass_eq hk, if_pos h15]
    refine ⟨_, rfl, ?_, ?_⟩
    · rw [foldl_erase_pairs, List.map_take]
      have hnd2 : ((sortByKey deco).map Prod.snd).Nodup := hperm.nodup_iff.2 hnd
      have hxnd : (((sortByKey deco).map Prod.snd).take
          ((sortByKey deco).length - pruneAmount)).Nodup :=
        (List.take_sublist _ _).nodup hnd2
      have hsub : ∀ x ∈ ((sortByKey deco).map Prod.snd).take
          ((sortByKey deco).length - pruneAmount), x ∈ ch :=
        fun x hx => hperm.subset (List.mem_of_mem_take hx)
      rw [foldl_erase_length _ _ hnd hxnd hsub, List.length_take]
      have hmlen : ((sortByKey deco).map Prod.snd).length = ch.length := hperm.length_eq
      rw [hmlen]
      omega
    · intro a ha
      rw [foldl_erase_pairs] at ha
      exact foldl_erase_subset _ ch ha
  · refine ⟨ch, prunePass_ok_small hk ?_, ?_, fun a ha => ha⟩
    · omega
    · omega

theorem prunePass_sorted_drop {ch : List Item} {deco : List (Int × Item)}
    (hk : computeKeys ch = Except.ok deco)
    (hsort : deco.Pairwise (fun a b => a.1 < b.1)) :
    prunePass ch = Except.ok (ch.drop (ch.length - pruneAmount)) := by
  have hid : sortByKey deco = deco := sortByKey_of_sorted hsort
  have hsnd : deco.map Prod.snd = ch := computeKeys_map_snd hk
  have hlen : deco.length = ch.length := by
    rw [← hsnd]
    simp
  rw [prunePass_eq hk, hid]
  by_cases h15 : pruneAmount < deco.length
  · rw [if_pos h15]
    congr 1
    rw [foldl_erase_pairs, List.map_take, hsnd, hlen]
    exact take_foldl_erase ch _
  · rw [if_neg h15]
    have h0 : ch.length - pruneAmount = 0 := by omega
    rw [h0, List.drop_zero]

/-! ### Reconcile-level helpers -/

theorem computeKeys_keys : ∀ {ch : List Item} {l : List (Int × Item)},
    computeKeys ch = Except.ok l → ∀ p ∈ l, sortKeyOf p.2 = Except.ok p.1 := by
  intro ch
  induction ch with
  | nil =>
    intro l h p hp
    simp only [computeKeys, Except.ok.injEq] at h
    subst h
    cases hp
  | cons it rest ih =>
    intro l h p hp
    simp only [computeKeys] at h
    cases hk : sortKeyOf it with
    | error e => rw [hk] at h; cases h
    | ok k =>
      rw [hk] at h
      cases hr : computeKeys rest with
      | error e => rw [hr] at h; cases h
      | ok l2 =>
        rw [hr] at h
        simp only [Except.ok.injEq] at h
        subst h
        rcases List.mem_cons.1 hp with rfl | hp2
        · exact hk
        · exact ih hr p hp2

theorem isOkB_iff {x : Except PyErr Int} : isOkB x = true ↔ ∃ k, x = Except.ok k := by
  cases x with
  | error e => simp [isOkB]
  | ok k => simp [isOkB]

theorem pubDate_ne_none_of_key {it : Item} {k : Int}
    (h : sortKeyOf it = Except.ok k) : it.pubDate ≠ none := by
  intro hp
  simp [sortKeyOf, hp] at h

theorem reconcile_eq {build : String} {nit : Item} {ch ch1 ch2 : List Item}
    (h1 : removePass build ch = Except.ok ch1) (h2 : prunePass ch1 = Except.ok ch2) :
    reconcile build nit ch = Except.ok (ch2 ++ [nit]) := by
  simp only [reconcile, h1, h2]

theorem reconcile_ok_inv {build : String} {nit : Item} {ch out : List Item}
    (h : reconcile build nit ch = Except.ok out) :
    ∃ ch1 ch2, removePass build ch = Except.ok ch1 ∧ prunePass ch1 = Except.ok ch2 ∧
      out = ch2 ++ [nit] := by
  cases h1 : removePass build ch with
  | error e =>
    simp only [reconcile, h1] at h
    exact Except.noConfusion h
  | ok ch1 =>
    cases h2 : prunePass ch1 with
    | error e =>
      simp only [reconcile, h1, h2] at h
      exact Except.noConfusion h
    | ok ch2 =>
      simp only [reconcile, h1, h2, Except.ok.injEq] at h
      exact ⟨ch1, ch2, rfl, h2, h.symm⟩

theorem versionMatches_newItem (build commit cl nf nd : String)
    (attrs : List (String × String)) :
    versionMatches build (newItem build commit cl nf nd attrs) = true := by
  simp [versionMatches, newItem]

theorem pubDate_newItem (build commit cl nf nd : String) (attrs : List (String × String)) :
    (newItem build commit cl nf nd attrs).pubDate = some (some nf) := rfl

/-! ### Claim C1 -/

/-- C1 counterexample: parsing the signature blob `a=1 b="x=y z" c=3` does NOT
succeed — splitting on spaces happens first, so the quoted value is broken
into the tokens `b="x=y` and `z"`, and the token `z"` contains no `=`, making
the two-variable unpacking raise `ValueError`.  The claimed mapping is never
produced. -/
theorem C1_counterexample :
    parseAttrs "a=1 b=\"x=y z\" c=3" = Except.error PyErr.valueError := by
  rfl

/-- C1 (amended): a double-quoted signature value may contain `=` signs (but
not spaces, since tokens are split on spaces before quotes are interpreted)
and the quotes are stripped: parsing `a=1 b="x=y" c=3` yields the mapping
a ↦ 1, b ↦ x=y, c ↦ 3, and all three keys subsequently appear as attributes
on the new entry's enclosure element. -/
theorem C1_amended_thm :
    parseAttrs "a=1 b=\"x=y\" c=3" =
      Except.ok [("a", "1"), ("b", "x=y"), ("c", "3")] ∧
    (newItem "1234" "abc" "abcdef" "Fri, 05 Jan 2024 00:00:00 +0000" "2024-01-05"
        [("a", "1"), ("b", "x=y"), ("c", "3")]).enclosure =
      some [("url", "https://tip.files.ghostty.org/abcdef/Ghostty.dmg"),
            ("type", "application/octet-stream"),
            ("a", "1"), ("b", "x=y"), ("c", "3")] := by
  constructor
  · rfl
  · rfl

/-! ### Claim C8 -/

/-- C8: the signature parser splits each space-delimited token at the FIRST
`=` only — for any key part without `=`, the split of `k ++ "=" ++ v` yields
key `k` and value `v`, with `v` free to contain further `=` characters — and
parsing fails whenever some space-delimited token contains no `=` at all. -/
theorem C8_thm :
    (∀ k v : List Char, '=' ∉ k → splitFirst '=' (k ++ '=' :: v) = some (k, v)) ∧
    (∀ blob : String, (∃ t ∈ splitOnChar ' ' blob.data, '=' ∉ t) →
      ∃ e, parseAttrs blob = Except.error e) := by
  constructor
  · exact fun k v h => splitFirst_append h
  · intro blob hbad
    obtain ⟨t, hmem, hne⟩ := hbad
    exact parseLoop_error ⟨t, hmem, PyErr.valueError, parseToken_no_eq hne⟩ []

/-- C8 witness: the first-`=` split at a concrete token whose value itself
contains `=`, and a concrete blob with an `=`-free token failing to parse. -/
theorem C8_witness :
    splitFirst '=' (['a'] ++ '=' :: ['b', '=', 'c']) = some (['a'], ['b', '=', 'c']) ∧
    ∃ e, parseAttrs "a=1 x" = Except.error e := by
  constructor
  · exact C8_thm.1 ['a'] ['b', '=', 'c'] (by decide)
  · exact C8_thm.2 "a=1 x" ⟨['x'], by decide, by decide⟩

/-! ### Claim C10 -/

/-- C10: a token `key=` whose value is empty after whitespace stripping makes
the parser raise `IndexError` at `value[0]` rather than produce an empty
value; and when a stripped value begins with a double quote the parser
removes both the first and the last character unconditionally, even when the
last character is not a closing quote. -/
theorem C10_thm :
    (∀ k ws : List Char, '=' ∉ k → (∀ c ∈ ws, pyWS c = true) →
      parseToken (k ++ '=' :: ws) = Except.error PyErr.indexError) ∧
    (∀ k v rest : List Char, '=' ∉ k → pyStrip v = '\x22' :: rest →
      parseToken (k ++ '=' :: v) = Except.ok (⟨k⟩, ⟨rest.dropLast⟩)) := by
  constructor
  · intro k ws hk hws
    simp [parseToken, splitFirst_append hk, pyStrip_all_ws hws]
  · intro k v rest hk hstrip
    simp [parseToken, splitFirst_append hk, hstrip]

/-- C10 witness: the token `key=` raises `IndexError`, and the token
`a="bc` (whose stripped value starts with a quote but does not end with one)
loses both its first and last characters, yielding value `b`. -/
theorem C10_witness :
    parseToken (['k', 'e', 'y'] ++ '=' :: []) = Except.error PyErr.indexError ∧
    parseToken (['a'] ++ '=' :: ['\x22', 'b', 'c']) = Except.ok ("a", "b") := by
  constructor
  · exact C10_thm.1 ['k', 'e', 'y'] [] (by decide) (by decide)
  · exact C10_thm.2 ['a'] ['\x22', 'b', 'c'] ['b', 'c'] (by decide) (by decide)

/-! ### Claim C9 -/

/-- C9: the output document exists exactly when the run raised no error — any
failure (missing environment value, missing signature file, malformed
signature block, malformed feed, missing channel, or any reconciliation
error) leaves no output file, since the write is the final step of the
script. -/
theorem C9_thm (inp : ScriptInput) :
    outputFile inp = none ↔ ∃ e, runScript inp = Except.error e := by
  unfold outputFile
  cases h : runScript inp with
  | ok doc => simp
  | error e => simp

/-- C9 witness: a run with an empty environment fails (`KeyError` on the
build number) and produces no output document. -/
theorem C9_witness :
    outputFile { env := [], signUpdate := none, appcast := none,
                 nowFmt := "", nowDate := "" } = none :=
  (C9_thm _).mpr ⟨PyErr.keyError, rfl⟩

/-! ### Claim C2 -/

/-- C2 counterexample: an existing entry whose `pubDate` text is present but
unparseable is NOT silently dropped — the sort key computation raises
`ValueError` and the whole run fails. -/
theorem C2_counterexample :
    reconcile "1234"
      (newItem "1234" "abc" "abcdef" "Fri, 05 Jan 2024 00:00:00 +0000" "2024-01-05" [])
      [{ version := some (some "5"), pubDate := some (some "never-a-date") }] =
      Except.error PyErr.valueError := by
  rfl

/-- C2 (amended): only entries whose `pubDate` element is ABSENT are silently
dropped; when an entry that survives the removal loop carries a present but
unparseable `pubDate`, the run does not succeed — it fails with an error and
no output is produced. -/
theorem C2_amended_thm {build : String} {nit : Item} {ch ch1 : List Item} {it : Item}
    {s : String} (h1 : removePass build ch = Except.ok ch1) (h2 : it ∈ ch1)
    (h3 : it.pubDate = some (some s)) (h4 : strptime s = none) :
    ∃ e, reconcile build nit ch = Except.error e := by
  have hkey : sortKeyOf it = Except.error PyErr.valueError := by
    simp [sortKeyOf, h3, h4]
  obtain ⟨e2, he2⟩ := computeKeys_error_of_mem h2 hkey
  refine ⟨e2, ?_⟩
  simp only [reconcile, h1, prunePass_error he2]

/-- A new item used by concrete run instances in witnesses. -/
def wNew : Item :=
  newItem "1234" "abc" "abcdef" "Fri, 05 Jan 2024 00:00:00 +0000" "2024-01-05" []

/-- A concrete existing entry with a present but unparseable publish date. -/
def c2item : Item := { version := some (some "7"), pubDate := some (some "never-a-date") }

/-- C2 witness: a concrete channel with one surviving entry carrying the
unparseable date text `never-a-date` makes the run error. -/
theorem C2_witness : ∃ e, reconcile "1234" wNew [c2item] = Except.error e :=
  @C2_amended_thm "1234" wNew [c2item] [c2item] c2item "never-a-date" rfl
    (List.mem_singleton_self c2item) rfl rfl

/-! ### Claim C7 -/

/-- C7 counterexample: an entry that has no `pubDate` AND matches the
candidate's version is removed by the duplicate check and then removed again
by the missing-`pubDate` check — the second `Element.remove` raises
`ValueError`, so the run does NOT complete. -/
theorem C7_counterexample :
    reconcile "1234"
      (newItem "1234" "abc" "abcdef" "Fri, 05 Jan 2024 00:00:00 +0000" "2024-01-05" [])
      [{ version := some (some "1234"), pubDate := none }] =
      Except.error PyErr.valueError := by
  rfl

/-- C7 (amended): an existing entry with no publish date never survives
reconciliation regardless of the retention cap, but only when it does not
also match the candidate's version; when it matches both, the run raises an
error instead of completing. -/
theorem C7_amended_thm {build commit cl nf nd : String} {attrs : List (String × String)}
    {ch : List Item} {it : Item}
    (hnd : ch.Nodup) (hmem : it ∈ ch) (hp : it.pubDate = none) :
    (∀ out, reconcile build (newItem build commit cl nf nd attrs) ch = Except.ok out →
      it ∉ out) ∧
    (versionMatches build it = true →
      ∃ e, reconcile build (newItem build commit cl nf nd attrs) ch = Except.error e) := by
  constructor
  · intro out h hout
    obtain ⟨ch1, ch2, h1, h2, rfl⟩ := reconcile_ok_inv h
    rcases List.mem_append.1 hout with hin | hin
    · have hin1 : it ∈ ch1 := prunePass_subset h2 hin
      exact removeLoop_not_mem hnd h1 it hmem (Or.inr hp) hin1
    · have : it = newItem build commit cl nf nd attrs := by simpa using hin
      rw [this, pubDate_newItem] at hp
      cases hp
  · intro hv
    obtain ⟨e, he⟩ := removeLoop_error_of_both hnd hnd hmem hmem hv hp
    have hrp : removePass build ch = Except.error e := he
    exact ⟨e, by simp only [reconcile, hrp]⟩

/-- A concrete existing entry with no publish date at all. -/
def c7item : Item := { version := some (some "777"), pubDate := none }

/-- C7 witness: a concrete no-`pubDate` entry (version differing from the
candidate's) is absent from the successful run's output. -/
theorem C7_witness : c7item ∉ [wNew] :=
  (@C7_amended_thm "1234" "abc" "abcdef" "Fri, 05 Jan 2024 00:00:00 +0000" "2024-01-05" []
    [c7item] c7item (List.nodup_cons.2 ⟨List.not_mem_nil _, List.nodup_nil⟩)
    (List.mem_singleton_self c7item) rfl).1 [wNew] rfl

/-! ### Claim C3 -/

/-- A concrete existing entry with version 999 and a valid date. -/
def c3a : Item :=
  { version := some (some "999"), pubDate := some (some "Mon, 01 Jan 2024 00:00:00 +0000") }

/-- A second concrete existing entry that shares version 999. -/
def c3b : Item :=
  { version := some (some "999"), pubDate := some (some "Tue, 02 Jan 2024 00:00:00 +0000") }

/-- C3 counterexample: when the prior feed holds two entries sharing the
version 999 — different from the candidate's 1234 — both survive
reconciliation, so the channel ends with two entries of the same version. -/
theorem C3_counterexample :
    reconcile "1234" wNew [c3a, c3b] = Except.ok [c3a, c3b, wNew] ∧
    countVersion "999" [c3a, c3b, wNew] = 2 := by
  constructor
  · rfl
  · rfl

/-- C3 (amended): after reconciliation the channel contains at most one entry
for the CANDIDATE's version (exactly the newly inserted one); pre-existing
duplicates of any other version are not deduplicated and may survive
together. -/
theorem C3_amended_thm {build commit cl nf nd : String} {attrs : List (String × String)}
    {ch out : List Item} (hnd : ch.Nodup)
    (h : reconcile build (newItem build commit cl nf nd attrs) ch = Except.ok out) :
    countVersion build out = 1 ∧
    ∀ it ∈ out, versionMatches build it = true → it = newItem build commit cl nf nd attrs := by
  obtain ⟨ch1, ch2, h1, h2, rfl⟩ := reconcile_ok_inv h
  have hno : ∀ it ∈ ch2, versionMatches build it = false := by
    intro it hit
    have hit1 : it ∈ ch1 := prunePass_subset h2 hit
    by_cases hv : versionMatches build it = true
    · have hitch : it ∈ ch := removeLoop_subset h1 hit1
      exact absurd hit1 (removeLoop_not_mem hnd h1 it hitch (Or.inl hv))
    · simpa using hv
  constructor
  · unfold countVersion
    rw [List.countP_append]
    have hz : ch2.countP (fun it => versionMatches build it) = 0 :=
      List.countP_eq_zero.2 (fun a ha => by simp [hno a ha])
    have ho : [newItem build commit cl nf nd attrs].countP
        (fun it => versionMatches build it) = 1 := by
      simp [List.countP_cons, versionMatches_newItem]
    rw [hz, ho]
  · intro it hit hv
    rcases List.mem_append.1 hit with h3 | h3
    · rw [hno it h3] at hv
      cases hv
    · simpa using h3

/-- C3 witness: a prior channel with the single entry `c3a` reconciles to
`[c3a, wNew]`, where exactly one entry carries the candidate version 1234,
namely the new item. -/
theorem C3_witness :
    countVersion "1234" [c3a, wNew] = 1 ∧
    ∀ it ∈ [c3a, wNew], versionMatches "1234" it = true →
      it = newItem "1234" "abc" "abcdef" "Fri, 05 Jan 2024 00:00:00 +0000" "2024-01-05" [] :=
  @C3_amended_thm "1234" "abc" "abcdef" "Fri, 05 Jan 2024 00:00:00 +0000" "2024-01-05" []
    [c3a] [c3a, wNew] (List.nodup_cons.2 ⟨List.not_mem_nil _, List.nodup_nil⟩) rfl

/-! ### Claim C4 -/

/-- Distinctness of two items' parsed publish dates (both parseable and with
different instants). -/
def keyNeB (a b : Item) : Bool :=
  match sortKeyOf a, sortKeyOf b with
  | .ok x, .ok y => decide (x ≠ y)
  | _, _ => false

/-- Strict ascending order of two items' parsed publish dates. -/
def keyLtB (a b : Item) : Bool :=
  match sortKeyOf a, sortKeyOf b with
  | .ok x, .ok y => decide (x < y)
  | _, _ => false

/-- A helper constructor for concrete test entries: version plus date. -/
def mkItem (v date : String) : Item :=
  { version := some (some v), pubDate := some (some date) }

/-- C4: for a prior channel of `k` valid entries — pairwise distinct
versions, none equal to the candidate's, parseable pairwise distinct dates —
and cap 15, reconciliation succeeds, the pre-insertion entry count is
`min k 15`, and the post-insertion total is `min k 15 + 1`. -/
theorem C4_thm {build commit cl nf nd : String} {attrs : List (String × String)}
    {ch : List Item}
    (hvers : ch.Pairwise (fun a b => a.version ≠ b.version))
    (hnomatch : ∀ it ∈ ch, versionMatches build it = false)
    (hdates : ∀ it ∈ ch, isOkB (sortKeyOf it) = true)
    (_hdd : ch.Pairwise (fun a b => keyNeB a b = true)) :
    ∃ pre, reconcile build (newItem build commit cl nf nd attrs) ch =
        Except.ok (pre ++ [newItem build commit cl nf nd attrs]) ∧
      pre.length = min ch.length pruneAmount ∧
      (pre ++ [newItem build commit cl nf nd attrs]).length = min ch.length pruneAmount + 1 := by
  have hnd : ch.Nodup := hvers.imp (fun hab hq => hab (congrArg Item.version hq))
  have hdates2 : ∀ it ∈ ch, it.pubDate ≠ none := by
    intro it hit
    obtain ⟨k, hk⟩ := isOkB_iff.1 (hdates it hit)
    exact pubDate_ne_none_of_key hk
  have hrp : removePass build ch =
      Except.ok (ch.filter (fun it => !versionMatches build it)) :=
    removePass_eq_filter hnd hdates2
  have hfeq : ch.filter (fun it => !versionMatches build it) = ch :=
    List.filter_eq_self.2 (fun a ha => by simp [hnomatch a ha])
  rw [hfeq] at hrp
  obtain ⟨deco, hkk⟩ := computeKeys_ok_of hdates
  obtain ⟨out, hpp, hlen, _⟩ := prunePass_length hnd hkk
  refine ⟨out, reconcile_eq hrp hpp, hlen, ?_⟩
  simp [hlen]

/-- C4 witness: a concrete two-entry valid channel reconciles to its two
entries plus the new one: pre-insertion count `min 2 15 = 2`, total 3. -/
theorem C4_witness :
    ∃ pre, reconcile "1234" wNew
        [mkItem "1" "Mon, 01 Jan 2024 00:00:00 +0000",
         mkItem "2" "Tue, 02 Jan 2024 00:00:00 +0000"] =
        Except.ok (pre ++
          [newItem "1234" "abc" "abcdef" "Fri, 05 Jan 2024 00:00:00 +0000" "2024-01-05" []]) ∧
      pre.length = min 2 pruneAmount ∧
      (pre ++
        [newItem "1234" "abc" "abcdef" "Fri, 05 Jan 2024 00:00:00 +0000" "2024-01-05" []]).length =
        min 2 pruneAmount + 1 :=
  @C4_thm "1234" "abc" "abcdef" "Fri, 05 Jan 2024 00:00:00 +0000" "2024-01-05" []
    [mkItem "1" "Mon, 01 Jan 2024 00:00:00 +0000",
     mkItem "2" "Tue, 02 Jan 2024 00:00:00 +0000"]
    (by decide) (by decide) (by decide) (by decide)

/-! ### Claim C5 -/

theorem countP_match_split (build : String) : ∀ (l : List Item),
    l.countP (fun it => !versionMatches build it) +
      l.countP (fun it => versionMatches build it) = l.length := by
  intro l
  induction l with
  | nil => rfl
  | cons x xs ih =>
    simp only [List.countP_cons, List.length_cons]
    by_cases h : versionMatches build x = true <;> simp [h] <;> omega

/-- C5: when the prior channel holds an entry of version 1234 plus ten other
valid entries (eleven in total, every date parseable, exactly one entry of
version 1234) and the candidate build is 1234, the run succeeds with eleven
entries, of which exactly one carries version 1234 — the newly constructed
item with the new signature attributes, not the old entry. -/
theorem C5_thm {commit cl nf nd : String} {attrs : List (String × String)} {ch : List Item}
    (hnd : ch.Nodup)
    (hlen : ch.length = 11)
    (hone : countVersion "1234" ch = 1)
    (hdates : ∀ it ∈ ch, isOkB (sortKeyOf it) = true) :
    ∃ out, reconcile "1234" (newItem "1234" commit cl nf nd attrs) ch = Except.ok out ∧
      out.length = 11 ∧ countVersion "1234" out = 1 ∧
      ∀ it ∈ out, versionMatches "1234" it = true →
        it = newItem "1234" commit cl nf nd attrs := by
  have hdates2 : ∀ it ∈ ch, it.pubDate ≠ none := by
    intro it hit
    obtain ⟨k, hk⟩ := isOkB_iff.1 (hdates it hit)
    exact pubDate_ne_none_of_key hk
  have hrp : removePass "1234" ch =
      Except.ok (ch.filter (fun it => !versionMatches "1234" it)) :=
    removePass_eq_filter hnd hdates2
  have hflen : (ch.filter (fun it => !versionMatches "1234" it)).length = 10 := by
    have h1 := countP_match_split "1234" ch
    have h2 : (ch.filter (fun it => !versionMatches "1234" it)).length =
        ch.countP (fun it => !versionMatches "1234" it) :=
      (List.countP_eq_length_filter _ _).symm
    unfold countVersion at hone
    omega
  have hfnd : (ch.filter (fun it => !versionMatches "1234" it)).Nodup :=
    hnd.filter _
  have hfdates : ∀ it ∈ ch.filter (fun it => !versionMatches "1234" it),
      isOkB (sortKeyOf it) = true :=
    fun it hit => hdates it (List.mem_of_mem_filter hit)
  obtain ⟨deco, hkk⟩ := computeKeys_ok_of hfdates
  have hpp : prunePass (ch.filter (fun it => !versionMatches "1234" it)) =
      Except.ok (ch.filter (fun it => !versionMatches "1234" it)) :=
    prunePass_ok_small hkk (by rw [hflen]; decide)
  refine ⟨_, reconcile_eq hrp hpp, ?_, ?_, ?_⟩
  · simp [hflen]
  · unfold countVersion
    rw [List.countP_append]
    have hz : (ch.filter (fun it => !versionMatches "1234" it)).countP
        (fun it => versionMatches "1234" it) = 0 :=
      List.countP_eq_zero.2 (fun a ha => by
        have := List.of_mem_filter ha
        simp at this
        simp [this])
    have ho : [newItem "1234" commit cl nf nd attrs].countP
        (fun it => versionMatches "1234" it) = 1 := by
      simp [List.countP_cons, versionMatches_newItem]
    rw [hz, ho]
  · intro it hit hv
    rcases List.mem_append.1 hit with h3 | h3
    · have := List.of_mem_filter h3
      rw [hv] at this
      cases this
    · simpa using h3

/-- The prior channel of the C5 witness: one version-1234 entry plus ten
other valid entries. -/
def c5ch : List Item :=
  [mkItem "1234" "Mon, 01 Jan 2024 00:00:00 +0000",
   mkItem "1" "Mon, 01 Jan 2024 00:00:01 +0000",
   mkItem "2" "Mon, 01 Jan 2024 00:00:02 +0000",
   mkItem "3" "Mon, 01 Jan 2024 00:00:03 +0000",
   mkItem "4" "Mon, 01 Jan 2024 00:00:04 +0000",
   mkItem "5" "Mon, 01 Jan 2024 00:00:05 +0000",
   mkItem "6" "Mon, 01 Jan 2024 00:00:06 +0000",
   mkItem "7" "Mon, 01 Jan 2024 00:00:07 +0000",
   mkItem "8" "Mon, 01 Jan 2024 00:00:08 +0000",
   mkItem "9" "Mon, 01 Jan 2024 00:00:09 +0000",
   mkItem "10" "Mon, 01 Jan 2024 00:00:10 +0000"]

/-- C5 witness: the concrete eleven-entry channel above reconciles to eleven
entries with exactly one version-1234 entry, the new item. -/
theorem C5_witness :
    ∃ out, reconcile "1234" wNew c5ch = Except.ok out ∧
      out.length = 11 ∧ countVersion "1234" out = 1 ∧
      ∀ it ∈ out, versionMatches "1234" it = true →
        it = newItem "1234" "abc" "abcdef" "Fri, 05 Jan 2024 00:00:00 +0000" "2024-01-05" [] :=
  @C5_thm "abc" "abcdef" "Fri, 05 Jan 2024 00:00:00 +0000" "2024-01-05" [] c5ch
    (by decide) (by decide) (by decide) (by decide)

/-! ### Claim C6 -/

/-- C6: for existing valid entries listed in strictly ascending date order
with `k > 15`, retention pruning removes exactly the `k - 15` oldest entries
— the survivors are precisely the suffix of the `15` most recent entries,
every larger-dated entry being retained. -/
theorem C6_thm {ch : List Item}
    (hdates : ∀ it ∈ ch, isOkB (sortKeyOf it) = true)
    (hsort : ch.Pairwise (fun a b => keyLtB a b = true))
    (hbig : pruneAmount < ch.length) :
    prunePass ch = Except.ok (ch.drop (ch.length - pruneAmount)) ∧
    (ch.drop (ch.length - pruneAmount)).length = pruneAmount := by
  obtain ⟨deco, hk⟩ := computeKeys_ok_of hdates
  have hsnd := computeKeys_map_snd hk
  have hpair : deco.Pairwise (fun a b => a.1 < b.1) := by
    have h2 : (deco.map Prod.snd).Pairwise (fun a b => keyLtB a b = true) := by
      rw [hsnd]
      exact hsort
    rw [List.pairwise_map] at h2
    refine h2.imp_of_mem ?_
    intro a b ha hb hab
    have hka := computeKeys_keys hk a ha
    have hkb := computeKeys_keys hk b hb
    simp only [keyLtB, hka, hkb, decide_eq_true_eq] at hab
    exact hab
  refine ⟨prunePass_sorted_drop hk hpair, ?_⟩
  rw [List.length_drop]
  omega

/-- The sixteen-entry ascending-date channel of the C6 witness. -/
def c6ch : List Item :=
  [mkItem "0" "Mon, 01 Jan 2024 00:00:00 +0000",
   mkItem "1" "Mon, 01 Jan 2024 00:00:01 +0000",
   mkItem "2" "Mon, 01 Jan 2024 00:00:02 +0000",
   mkItem "3" "Mon, 01 Jan 2024 00:00:03 +0000",
   mkItem "4" "Mon, 01 Jan 2024 00:00:04 +0000",
   mkItem "5" "Mon, 01 Jan 2024 00:00:05 +0000",
   mkItem "6" "Mon, 01 Jan 2024 00:00:06 +0000",
   mkItem "7" "Mon, 01 Jan 2024 00:00:07 +0000",
   mkItem "8" "Mon, 01 Jan 2024 00:00:08 +0000",
   mkItem "9" "Mon, 01 Jan 2024 00:00:09 +0000",
   mkItem "10" "Mon, 01 Jan 2024 00:00:10 +0000",
   mkItem "11" "Mon, 01 Jan 2024 00:00:11 +0000",
   mkItem "12" "Mon, 01 Jan 2024 00:00:12 +0000",
   mkItem "13" "Mon, 01 Jan 2024 00:00:13 +0000",
   mkItem "14" "Mon, 01 Jan 2024 00:00:14 +0000",
   mkItem "15" "Mon, 01 Jan 2024 00:00:15 +0000"]

/-- C6 witness: pruning the concrete sixteen-entry ascending channel keeps
exactly its last fifteen entries. -/
theorem C6_witness :
    prunePass c6ch = Except.ok (c6ch.drop (c6ch.length - pruneAmount)) ∧
    (c6ch.drop (c6ch.length - pruneAmount)).length = pruneAmount :=
  C6_thm (by decide) (by decide) (by decide)
